import Mathlib

/-!
Verification development for the phredsort quality-based FASTQ sorting engine.

The Go sources are embedded shallowly:
  * quality bytes are `List Nat`, record ids/headers are `String`;
  * `float64`/`float32` quality values in the comparison/filtering paths are
    idealized as `ℚ` (no NaN arises in those paths: scores and parsed header
    values are finite or handled by the dedicated empty-input branches);
  * the metric calculators (`qualitymetrics.go`), which are genuinely
    transcendental, are idealized over `ℝ` with `⊤ : EReal` standing for the
    `math.Inf(1)` sentinel;
  * Go `uint32` conversions are modelled as `% 2^32`;
  * the zstd codec is an external collaborator and enters only as an abstract
    pair of functions `compress`/`decompress`.
-/

/-! ### Character classes used by the Go regular expressions

Go's RE2 classes over ASCII input: the word class of both metric regexes is
the RE2 perl class, and the space class is the 5-character RE2 perl class. -/

def isWordChar (c : Char) : Bool := c.isAlphanum || c = '_'

def isSpaceGo (c : Char) : Bool :=
  c = ' ' || c = '\t' || c = '\n' || c = '\r' || c = '\x0c'

/-- Decimal value of a digit run (the way strconv reads an all-digit string). -/
def natOfDigits (ds : List Char) : Nat :=
  ds.foldl (fun n c => 10 * n + (c.toNat - 48)) 0

/-! ### Natural-order string comparison -/

/-- One chunk of a string for natural-order comparison: a maximal digit run
or a single non-digit character. -/
inductive NatToken where
  | digits : List Char → NatToken
  | sym : Char → NatToken
deriving DecidableEq, Repr

/-- Split a string into chunks: maximal digit runs and individual non-digit
characters. -/
def natTokens : List Char → List NatToken
  | [] => []
  | c :: cs =>
    let ts := natTokens cs
    if c.isDigit then
      match ts with
      | NatToken.digits d :: rest => NatToken.digits (c :: d) :: rest
      | _ => NatToken.digits [c] :: ts
    else NatToken.sym c :: ts

/-- Chunk-wise comparison: digit runs compare by numeric value, other
characters compare directly; a proper prefix sorts first. -/
def natTokLess : List NatToken → List NatToken → Bool
  | [], [] => false
  | [], _ :: _ => true
  | _ :: _, [] => false
  | NatToken.digits d1 :: t1, NatToken.digits d2 :: t2 =>
    if natOfDigits d1 = natOfDigits d2 then natTokLess t1 t2
    else decide (natOfDigits d1 < natOfDigits d2)
  | NatToken.sym c1 :: t1, NatToken.sym c2 :: t2 =>
    if c1 = c2 then natTokLess t1 t2 else decide (c1 < c2)
  | NatToken.digits d1 :: _, NatToken.sym c2 :: _ => decide (d1.headD '0' < c2)
  | NatToken.sym c1 :: _, NatToken.digits d2 :: _ => decide (c1 < d2.headD '0')

/-- Modelled from the spec: the external collaborator github.com/maruel/natural
`Less`, described in the spec as a comparator that splits each string into
alternating runs of digits and non-digits, compares non-digit runs
lexicographically and digit runs numerically (so seq2 sorts before seq10). -/
def naturalLess (a b : String) : Bool :=
  natTokLess (natTokens a.toList) (natTokens b.toList)

/-! ### QualityMetric (phredsort.go) -/

inductive QualityMetric where
  | AvgPhred
  | MaxEE
  | Meep
  | LQCount
  | LQPercent
deriving DecidableEq, Repr

/-- `QualityMetric.String` from phredsort.go (renamed: `String` is taken). -/
def metricString : QualityMetric → String
  | .AvgPhred => "avgphred"
  | .MaxEE => "maxee"
  | .Meep => "meep"
  | .LQCount => "lqcount"
  | .LQPercent => "lqpercent"

/-! ### QualityFloat and its comparator (phredsort.go, QualityFloatList.Less) -/

structure QualityFloat where
  Name : String
  Value : ℚ
  Metric : QualityMetric
deriving DecidableEq, Repr

/-- `QualityFloatList.Less` (phredsort.go lines 87-113) as a two-element
comparator.  The Go method reads the metric from `items[0].Metric`
(`getMetricFromValue`); lists built by the engine carry one uniform metric, so
the metric is a parameter here. -/
def qflLess (metric : QualityMetric) (ascending : Bool) (a b : QualityFloat) : Bool :=
  let result :=
    if metric = .MaxEE ∨ metric = .Meep ∨ metric = .LQCount ∨ metric = .LQPercent then
      if a.Value ≠ b.Value then decide (a.Value < b.Value)
      else naturalLess a.Name b.Name
    else
      if a.Value ≠ b.Value then decide (b.Value < a.Value)
      else naturalLess a.Name b.Name
  if ascending then !result else result

/-- Non-strict order induced by a strict `Less` comparator: `a` may stay
before `b` iff `¬ Less b a`. -/
def qflLE (metric : QualityMetric) (ascending : Bool) (a b : QualityFloat) : Bool :=
  !(qflLess metric ascending b a)

/-- The engine's `sort.Sort(qualityList)` call, modelled as a comparator-driven
(stable) sort ordered by `qflLess`. -/
def sortQFL (metric : QualityMetric) (ascending : Bool) (l : List QualityFloat) :
    List QualityFloat :=
  l.insertionSort (fun a b => qflLE metric ascending a b = true)

/-! ### Records and the header-presort comparator (command_headersort.go) -/

structure FastxRecord where
  name : String
  sequence : List Nat
  quality : List Nat
deriving DecidableEq, Repr

structure PreSortRecord where
  ID : String
  Name : String
  Quality : ℚ
  Size : Nat
  Record : FastxRecord
  HasSize : Bool
  HasQual : Bool
deriving DecidableEq, Repr

/-- `PreSortRecordList.Less` (command_headersort.go lines 56-91). -/
def preLess (metric : QualityMetric) (ascending : Bool) (a b : PreSortRecord) : Bool :=
  if a.Quality ≠ b.Quality then
    let result :=
      if metric = .MaxEE ∨ metric = .Meep ∨ metric = .LQCount ∨ metric = .LQPercent then
        decide (a.Quality < b.Quality)
      else decide (b.Quality < a.Quality)
    if ascending then !result else result
  else
    if a.HasSize && b.HasSize then
      if a.Size ≠ b.Size then
        if ascending then decide (a.Size < b.Size) else decide (b.Size < a.Size)
      else naturalLess a.ID b.ID
    else naturalLess a.ID b.ID

/-- Non-strict order induced by `preLess`. -/
def preLE (metric : QualityMetric) (ascending : Bool) (a b : PreSortRecord) : Bool :=
  !(preLess metric ascending b a)

/-- `sort.Sort(recordList)` for the presort path, as a comparator-driven
(stable) sort ordered by `preLess`. -/
def sortPre (metric : QualityMetric) (ascending : Bool) (l : List PreSortRecord) :
    List PreSortRecord :=
  l.insertionSort (fun a b => preLE metric ascending a b = true)

/-! ### Header parsing (command_headersort.go)

The three Go regular expressions
  spaceMetricRe = \s+(\w+)=(\d+\.?\d*)
  semiMetricRe  = ;(\w+)=(\d+\.?\d*)
  sizeRe        = (?:\s|;)size=(\d+)
are embedded as direct left-to-right scanners.  For these patterns greedy
matching never needs backtracking (after a maximal run the next required
character is outside the run's class), and scanning every start position
returns the same first-match-per-name as RE2's non-overlapping FindAll
(a match starting inside another match can only start inside its leading
separator run and then yields the same name=value pair). -/

/-- Match `(\d+\.?\d*)` at the head of the list; returns (capture, rest). -/
def matchNumberAt (l : List Char) : Option (List Char × List Char) :=
  let d1 := l.takeWhile Char.isDigit
  let r1 := l.dropWhile Char.isDigit
  if d1.isEmpty then none
  else
    match r1 with
    | '.' :: r2 =>
      let d2 := r2.takeWhile Char.isDigit
      let r3 := r2.dropWhile Char.isDigit
      some (d1 ++ '.' :: d2, r3)
    | _ => some (d1, r1)

/-- Match `\s+(\w+)=(\d+\.?\d*)` at the head; returns (name, value capture). -/
def matchSpaceMetricAt (l : List Char) : Option (List Char × List Char) :=
  if (l.takeWhile isSpaceGo).isEmpty then none
  else
    if ((l.dropWhile isSpaceGo).takeWhile isWordChar).isEmpty then none
    else
      match (l.dropWhile isSpaceGo).dropWhile isWordChar with
      | '=' :: r3 =>
        match matchNumberAt r3 with
        | some (cap, _) => some ((l.dropWhile isSpaceGo).takeWhile isWordChar, cap)
        | none => none
      | _ => none

/-- Match `;(\w+)=(\d+\.?\d*)` at the head; returns (name, value capture). -/
def matchSemiMetricAt (l : List Char) : Option (List Char × List Char) :=
  match l with
  | ';' :: r1 =>
    if (r1.takeWhile isWordChar).isEmpty then none
    else
      match r1.dropWhile isWordChar with
      | '=' :: r3 =>
        match matchNumberAt r3 with
        | some (cap, _) => some (r1.takeWhile isWordChar, cap)
        | none => none
      | _ => none
  | _ => none

/-- First `spaceMetricRe` match whose name is `target`
(the loop over `FindAllStringSubmatch` in `parsePreSortRecord`). -/
def findSpaceMetric (target : List Char) : List Char → Option (List Char)
  | [] => none
  | c :: cs =>
    match matchSpaceMetricAt (c :: cs) with
    | some (w, cap) => if w = target then some cap else findSpaceMetric target cs
    | none => findSpaceMetric target cs

/-- First `semiMetricRe` match whose name is `target`. -/
def findSemiMetric (target : List Char) : List Char → Option (List Char)
  | [] => none
  | c :: cs =>
    match matchSemiMetricAt (c :: cs) with
    | some (w, cap) => if w = target then some cap else findSemiMetric target cs
    | none => findSemiMetric target cs

/-- Match `(?:\s|;)size=(\d+)` at the head; returns the digit capture. -/
def matchSizeAt (l : List Char) : Option (List Char) :=
  match l with
  | c :: 's' :: 'i' :: 'z' :: 'e' :: '=' :: r =>
    if isSpaceGo c || c = ';' then
      let d := r.takeWhile Char.isDigit
      if d.isEmpty then none else some d
    else none
  | _ => none

/-- First `sizeRe` match in the header (`FindStringSubmatch`). -/
def findSize : List Char → Option (List Char)
  | [] => none
  | c :: cs =>
    match matchSizeAt (c :: cs) with
    | some d => some d
    | none => findSize cs

/-- Value of a `\d+\.?\d*` capture, as `strconv.ParseFloat` reads it
(idealized as an exact rational). -/
def parseDecimal (cap : List Char) : ℚ :=
  let ip := cap.takeWhile Char.isDigit
  let rest := cap.dropWhile Char.isDigit
  match rest with
  | '.' :: fp => (natOfDigits ip : ℚ) + (natOfDigits fp : ℚ) / (10 : ℚ) ^ fp.length
  | _ => (natOfDigits ip : ℚ)

/-- Strip a leading `>` or `@` from the id token. -/
def stripSigil (id0 : List Char) : List Char :=
  match id0 with
  | c :: rest => if c = '>' || c = '@' then rest else id0
  | [] => []

/-- `parsePreSortRecord` (command_headersort.go lines 101-162): extract the id
(first space-delimited token, sigil stripped), the optional `size=` annotation,
and the requested metric value, trying the space-separated format first and
the semicolon-separated format second. -/
def parsePreSortRecord (record : FastxRecord) (metric : QualityMetric) : PreSortRecord :=
  let header := record.name.toList
  let id := stripSigil (header.takeWhile (fun c => c ≠ ' '))
  let base : PreSortRecord :=
    { ID := String.mk id, Name := record.name, Quality := 0, Size := 0,
      Record := record, HasSize := false, HasQual := false }
  let withSize :=
    match findSize header with
    | some d => { base with Size := natOfDigits d, HasSize := true }
    | none => base
  let metricStr := (metricString metric).toList
  match findSpaceMetric metricStr header with
  | some cap => { withSize with Quality := parseDecimal cap, HasQual := true }
  | none =>
    match findSemiMetric metricStr header with
    | some cap => { withSize with Quality := parseDecimal cap, HasQual := true }
    | none => withSize

/-! ### PresortEngine (command_headersort.go, runPresort) -/

/-- The record-reading loop of `runPresort` (lines 252-273): parse each record,
fail on the first one missing the metric, keep those inside the quality range. -/
def collectPresortRecords (metric : QualityMetric) (minQual maxQual : ℚ) :
    List FastxRecord → Except String (List PreSortRecord)
  | [] => .ok []
  | r :: rs =>
    let p := parsePreSortRecord r metric
    if p.HasQual = false then
      .error ("record missing required quality metric (" ++ metricString metric
        ++ "): " ++ p.Name)
    else
      match collectPresortRecords metric minQual maxQual rs with
      | .error e => .error e
      | .ok rest =>
        if minQual ≤ p.Quality ∧ p.Quality ≤ maxQual then .ok (p :: rest)
        else .ok rest

/-- `runPresort` (command_headersort.go lines 230-285): collect, sort, emit.
`.error` models the fatal return before anything is written. -/
def runPresort (input : List FastxRecord) (metric : QualityMetric) (ascending : Bool)
    (minQual maxQual : ℚ) : Except String (List FastxRecord) :=
  match collectPresortRecords metric minQual maxQual input with
  | .error e => .error e
  | .ok records => .ok ((sortPre metric ascending records).map (fun p => p.Record))

/-! ### writeRecord (phredsort.go lines 477-516) -/

structure HeaderMetric where
  Name : String
  IsLength : Bool
deriving DecidableEq, Repr

/-- `writeRecord`: drop the record when the score is outside the inclusive
`[minQualFilter, maxQualFilter]` band, otherwise emit it, with the requested
`name=value` annotations appended to the header.  `none` models the Go
function returning `false` without writing; `some r` models writing `r` and
returning `true`.  `calcToken` abstracts the per-metric `%.6f` formatting of
the recomputed float metric values (out of scope of the claims proved here);
the `length=N` token is computed directly. -/
def writeRecord (calcToken : String → FastxRecord → String) (record : FastxRecord)
    (quality : ℚ) (headerMetrics : List HeaderMetric)
    (minQualFilter maxQualFilter : ℚ) : Option FastxRecord :=
  if quality < minQualFilter ∨ quality > maxQualFilter then none
  else
    if headerMetrics.length > 0 then
      let additions := headerMetrics.map (fun hm =>
        if hm.IsLength then "length=" ++ toString record.sequence.length
        else calcToken hm.Name record)
      if additions.length > 0 then
        let sep : String := " "
        some { record with name := record.name ++ sep ++ sep.intercalate additions }
      else some record
    else some record

/-! ### sortStdin (phredsort.go lines 518-655), map-keyed stdin path

The compLevel = 0 branch is modelled (the compressed branch stores the same
map keyed by the same full-header name and emits identically).  The single
reading loop fills a name-keyed map of records and a per-record index list;
the model builds the same two structures.  `scoreFn` abstracts
`calculateQuality` (the float metric calculators). -/

def mapUpd (m : String → Option FastxRecord) (key : String) (v : FastxRecord) :
    String → Option FastxRecord :=
  fun k => if k = key then some v else m k

def emptySeqMap : String → Option FastxRecord := fun _ => none

def sortStdin (scoreFn : FastxRecord → ℚ) (metric : QualityMetric) (ascending : Bool)
    (calcToken : String → FastxRecord → String) (headerMetrics : List HeaderMetric)
    (minQualFilter maxQualFilter : ℚ) (input : List FastxRecord) : List FastxRecord :=
  let sequences := input.foldl (fun m r => mapUpd m r.name r) emptySeqMap
  let name2avgQual := input.map (fun r =>
    { Name := r.name, Value := scoreFn r, Metric := metric : QualityFloat })
  let sorted := sortQFL metric ascending name2avgQual
  sorted.filterMap (fun kv =>
    match sequences kv.Name with
    | some r0 => writeRecord calcToken r0 kv.Value headerMetrics minQualFilter maxQualFilter
    | none => none)

/-! ### CompactStorage (command_sort.go lines 60-97) -/

/-- 2^32, the modulus of Go's `uint32(...)` conversions. -/
def U32 : Nat := 4294967296

structure CompactStorage where
  data : List Nat
  offsets : List Nat
  lengths : List Nat
deriving DecidableEq, Repr

def CompactStorage.empty : CompactStorage := { data := [], offsets := [], lengths := [] }

/-- `Append`: record the current data length and the record length (both as
`uint32`), then extend the arena.  The returned Go index is the pre-append
`len(s.offsets)` = `s.Len`. -/
def CompactStorage.Append (s : CompactStorage) (compressed : List Nat) : CompactStorage :=
  { data := s.data ++ compressed,
    offsets := s.offsets ++ [s.data.length % U32],
    lengths := s.lengths ++ [compressed.length % U32] }

/-- `Get`: the byte slice `s.data[start : start+s.lengths[idx]]` for the slot.
Both operands of the high bound are `uint32`, so the sum wraps mod 2^32 before
Go's slice bounds check; a slice with `low > high` or `high > len(data)`
panics, modelled as `none`. -/
def CompactStorage.Get (s : CompactStorage) (idx : Nat) : Option (List Nat) :=
  let start := s.offsets.getD idx 0
  let high := (start + s.lengths.getD idx 0) % U32
  if start ≤ high ∧ high ≤ s.data.length then
    some ((s.data.drop start).take (high - start))
  else none

def CompactStorage.Len (s : CompactStorage) : Nat := s.offsets.length

/-- The arena invariant stated in the spec: parallel index arrays, and every
recorded slot range lies inside the arena. -/
def CompactStorage.wf (s : CompactStorage) : Prop :=
  s.offsets.length = s.lengths.length ∧
  ∀ i, i < s.offsets.length → s.offsets.getD i 0 + s.lengths.getD i 0 ≤ s.data.length

/-- The per-record compression step of `sortCompressed` (command_sort.go lines
224-234): concatenate sequence and quality bytes, compress, arena-append. -/
def appendRecordCompressed (compress : List Nat → List Nat) (s : CompactStorage)
    (r : FastxRecord) : CompactStorage :=
  s.Append (compress (r.sequence ++ r.quality))

/-- The per-record retrieval step of `sortCompressed` (lines 253-270): arena
get, decompress, split at the midpoint `len/2`.  `none` propagates a `Get`
slice panic. -/
def getRecordCompressed (decompress : List Nat → List Nat) (s : CompactStorage)
    (idx : Nat) : Option (List Nat × List Nat) :=
  match s.Get idx with
  | none => none
  | some compData =>
    let decompressed := decompress compData
    let seqLen := decompressed.length / 2
    some (decompressed.take seqLen, decompressed.drop seqLen)

/-! ### MetricCalculator (qualitymetrics.go), idealized over the reals

`⊤ : EReal` models the Go sentinel `math.Inf(1)`. -/

/-- The `errorProbs` table: `math.Pow(10, float64(i-PHRED_OFFSET) / (-10))`. -/
noncomputable def errorProb (q : Nat) : ℝ := (10 : ℝ) ^ (((q : ℝ) - 33) / (-10 : ℝ))

noncomputable def sumErrorProbs (qual : List Nat) : ℝ := (qual.map errorProb).sum

/-- `calculateAvgPhred`: 0 on empty quality, else back-transformed mean. -/
noncomputable def calculateAvgPhred (qual : List Nat) : ℝ :=
  if qual = [] then 0
  else -10 * Real.logb 10 (sumErrorProbs qual / (qual.length : ℝ))

/-- `calculateMaxEE`: +Inf on empty quality, else sum of error probabilities. -/
noncomputable def calculateMaxEE (qual : List Nat) : EReal :=
  if qual = [] then ⊤ else ((sumErrorProbs qual : ℝ) : EReal)

/-- `calculateMeep`: +Inf on empty quality, else MaxEE per 100 bases. -/
noncomputable def calculateMeep (qual : List Nat) : EReal :=
  if qual = [] then ⊤
  else (((sumErrorProbs qual * 100) / (qual.length : ℝ) : ℝ) : EReal)

/-- The counting loop shared by `countLowQualityBases` and
`calculateLQPercent`: bases with `int(q) - PHRED_OFFSET < minPhred`. -/
def lqCount (qual : List Nat) (minPhred : ℤ) : Nat :=
  qual.countP (fun q => decide ((q : ℤ) - 33 < minPhred))

/-- `countLowQualityBases`: +Inf on empty quality, else the count. -/
noncomputable def countLowQualityBases (qual : List Nat) (minPhred : ℤ) : EReal :=
  if qual = [] then ⊤ else (((lqCount qual minPhred : ℕ) : ℝ) : EReal)

/-- `calculateLQPercent`: +Inf on empty quality, else the count per 100 bases. -/
noncomputable def calculateLQPercent (qual : List Nat) (minPhred : ℤ) : EReal :=
  if qual = [] then ⊤
  else ((((lqCount qual minPhred : ℕ) : ℝ) * 100 / (qual.length : ℝ) : ℝ) : EReal)

/-! ### Helper lemmas -/

/-- Get evaluation lemma, in-bounds case.  Stating it abstractly keeps the
decidable instance of the slice bounds check away from concrete arenas. -/
theorem CompactStorage.Get_some (s : CompactStorage) (idx : Nat)
    (hcond : s.offsets.getD idx 0 ≤ (s.offsets.getD idx 0 + s.lengths.getD idx 0) % U32 ∧
      (s.offsets.getD idx 0 + s.lengths.getD idx 0) % U32 ≤ s.data.length) :
    s.Get idx = some ((s.data.drop (s.offsets.getD idx 0)).take
      ((s.offsets.getD idx 0 + s.lengths.getD idx 0) % U32 - s.offsets.getD idx 0)) := by
  simp only [CompactStorage.Get]
  rw [if_pos hcond]

/-- Get evaluation lemma, panic case (inverted or overlong slice bounds). -/
theorem CompactStorage.Get_noneOf (s : CompactStorage) (idx : Nat)
    (hcond : ¬(s.offsets.getD idx 0 ≤ (s.offsets.getD idx 0 + s.lengths.getD idx 0) % U32 ∧
      (s.offsets.getD idx 0 + s.lengths.getD idx 0) % U32 ≤ s.data.length)) :
    s.Get idx = none := by
  simp only [CompactStorage.Get]
  rw [if_neg hcond]

/-- Retrieval evaluation lemma: a successful arena `Get` makes
`getRecordCompressed` decompress and split the slot bytes. -/
theorem getRecordCompressed_of_get (decompress : List Nat → List Nat)
    (s : CompactStorage) (idx : Nat) (b : List Nat) (h : s.Get idx = some b) :
    getRecordCompressed decompress s idx =
      some ((decompress b).take ((decompress b).length / 2),
            (decompress b).drop ((decompress b).length / 2)) := by
  unfold getRecordCompressed
  rw [h]

/-- Folding `Append` only ever extends the three arena components. -/
theorem foldl_append_extends (bss : List (List Nat)) (s : CompactStorage) :
    ∃ dt ot lt,
      (bss.foldl CompactStorage.Append s).data = s.data ++ dt ∧
      (bss.foldl CompactStorage.Append s).offsets = s.offsets ++ ot ∧
      (bss.foldl CompactStorage.Append s).lengths = s.lengths ++ lt := by
  induction bss generalizing s with
  | nil => exact ⟨[], [], [], by simp, by simp, by simp⟩
  | cons c cs ih =>
    obtain ⟨dt, ot, lt, hd, ho, hl⟩ := ih (s.Append c)
    refine ⟨c ++ dt, [s.data.length % U32] ++ ot, [c.length % U32] ++ lt, ?_, ?_, ?_⟩
    · simpa [CompactStorage.Append] using hd
    · simpa [CompactStorage.Append] using ho
    · simpa [CompactStorage.Append] using hl

/-- After appending a blob to a balanced arena such that arena plus blob stay
under the `uint32` range, `Get` at the blob's slot returns the blob, whatever
is appended afterwards. -/
theorem get_after_append (s : CompactStorage) (c : List Nat) (laters : List (List Nat))
    (hbal : s.offsets.length = s.lengths.length)
    (hsum : s.data.length + c.length < U32) :
    (laters.foldl CompactStorage.Append (s.Append c)).Get s.Len = some c := by
  obtain ⟨dt, ot, lt, hd, ho, hl⟩ := foldl_append_extends laters (s.Append c)
  have hdata : s.data.length < U32 := by omega
  have hc : c.length < U32 := by omega
  have hoff : (s.Append c).offsets = s.offsets ++ [s.data.length % U32] := rfl
  have hlen : (s.Append c).lengths = s.lengths ++ [c.length % U32] := rfl
  have hdat : (s.Append c).data = s.data ++ c := rfl
  have hWfLen : s.Len = s.offsets.length := rfl
  have h1 : (laters.foldl CompactStorage.Append (s.Append c)).offsets.getD s.Len 0
      = s.data.length := by
    rw [ho, hoff, hWfLen, List.append_assoc, List.getD_eq_getElem?_getD,
      List.getElem?_append_right (by simp)]
    simpa using Nat.mod_eq_of_lt hdata
  have h2 : (laters.foldl CompactStorage.Append (s.Append c)).lengths.getD s.Len 0
      = c.length := by
    rw [hl, hlen, hWfLen, hbal, List.append_assoc, List.getD_eq_getElem?_getD,
      List.getElem?_append_right (by simp)]
    simpa using Nat.mod_eq_of_lt hc
  simp only [CompactStorage.Get, h1, h2, Nat.mod_eq_of_lt hsum, hd, hdat,
    List.append_assoc]
  rw [if_pos ⟨Nat.le_add_right _ _, by simp [List.length_append]⟩]
  rw [List.drop_left, Nat.add_sub_cancel_left, List.take_left]

/-- Inside the wrap region the amended provisos of the round-trip theorems
exclude, the Go slice bounds invert and `Get` panics: an arena of 2^32 - 100
bytes followed by a 200-byte blob gives high bound (2^32 + 100) mod 2^32 =
100 < start, modelled as `none`. -/
theorem get_wrap_panic :
    ((CompactStorage.empty.Append (List.replicate (U32 - 100) 48)).Append
      (List.replicate 200 65)).Get 1 = none := by
  have hU : (200 : Nat) < U32 := by norm_num [U32]
  have h1 : (CompactStorage.empty.Append (List.replicate (U32 - 100) 48)).Append
        (List.replicate 200 65)
      = { data := List.replicate (U32 - 100) 48 ++ List.replicate 200 65,
          offsets := [0, U32 - 100], lengths := [U32 - 100, 200] } := by
    have hm1 : (U32 - 100) % U32 = U32 - 100 := Nat.mod_eq_of_lt (by omega)
    have hm2 : (200 : Nat) % U32 = 200 := Nat.mod_eq_of_lt hU
    simp only [CompactStorage.Append, CompactStorage.empty, List.nil_append,
      List.length_nil, Nat.zero_mod, List.length_replicate, hm1, hm2,
      List.singleton_append]
  have hhigh : (U32 - 100 + 200) % U32 = 100 := by
    have heq : U32 - 100 + 200 = U32 + 100 := by omega
    rw [heq, Nat.add_mod_left]
    exact Nat.mod_eq_of_lt (by omega)
  rw [h1]
  apply CompactStorage.Get_noneOf
  simp only [List.getD_cons_succ, List.getD_cons_zero, hhigh]
  exact fun hcon => absurd hcon.1 (by omega)

/-- With equal primary keys, `preLess` is the size/ID tie-break chain. -/
theorem preLess_eq_tiebreak (m : QualityMetric) (asc : Bool) (a b : PreSortRecord)
    (hq : a.Quality = b.Quality) :
    preLess m asc a b =
      (if (a.HasSize && b.HasSize) = true then
        if a.Size ≠ b.Size then
          (if asc = true then decide (a.Size < b.Size) else decide (b.Size < a.Size))
        else naturalLess a.ID b.ID
      else naturalLess a.ID b.ID) := by
  rw [preLess, if_neg (by simp [hq])]

/-! ### Claims -/

/-- C6: a record is written iff `minQualFilter ≤ score ≤ maxQualFilter`; the
bounds are inclusive, a record outside them is silently dropped (`writeRecord`
returns `none`, the model of returning `false` without writing), and dropping
is not an error (the function has no failure outcome). -/
theorem writeRecord_filter_iff (calcToken : String → FastxRecord → String)
    (record : FastxRecord) (quality : ℚ) (headerMetrics : List HeaderMetric)
    (minQ maxQ : ℚ) :
    (writeRecord calcToken record quality headerMetrics minQ maxQ).isSome = true ↔
      minQ ≤ quality ∧ quality ≤ maxQ := by
  unfold writeRecord
  split_ifs with h h2 <;> simp_all
  intro hq
  rcases h with h | h
  · exact absurd hq (not_le.mpr h)
  · exact h

/-- C3: the metric calculators on empty quality return 0 (AvgPhred) and +Inf
(MaxEE, Meep, LQCount, LQPercent); on non-empty quality AvgPhred is
`-10 * log10` of the mean of the per-byte error probabilities
`10 ^ (-(byte - 33) / 10)`. -/
theorem metric_calculators_spec (mp : ℤ) (q : List Nat) (h : q ≠ []) :
    calculateAvgPhred [] = 0 ∧ calculateMaxEE [] = ⊤ ∧ calculateMeep [] = ⊤ ∧
    countLowQualityBases [] mp = ⊤ ∧ calculateLQPercent [] mp = ⊤ ∧
    calculateAvgPhred q =
      -10 * Real.logb 10
        (((q.map fun b : Nat => (10 : ℝ) ^ (-(((b : ℝ) - 33) / 10))).sum) /
          (q.length : ℝ)) := by
  refine ⟨by simp [calculateAvgPhred], by simp [calculateMaxEE], by simp [calculateMeep],
    by simp [countLowQualityBases], by simp [calculateLQPercent], ?_⟩
  rw [calculateAvgPhred, if_neg h]
  have hfun : errorProb = fun b : Nat => (10 : ℝ) ^ (-(((b : ℝ) - 33) / 10)) := by
    funext b
    rw [errorProb]
    congr 1
    ring
  rw [sumErrorProbs, hfun]

/-- C3 witness: the theorem instantiated at `minPhred = 0` and the one-byte
quality string `[73]`. -/
theorem metric_calculators_spec_witness :
    calculateAvgPhred [] = 0 ∧ calculateMaxEE [] = ⊤ ∧ calculateMeep [] = ⊤ ∧
    countLowQualityBases [] 0 = ⊤ ∧ calculateLQPercent [] 0 = ⊤ ∧
    calculateAvgPhred [73] =
      -10 * Real.logb 10
        ((([73] : List Nat).map fun b : Nat => (10 : ℝ) ^ (-(((b : ℝ) - 33) / 10))).sum /
          (([73] : List Nat).length : ℝ)) :=
  metric_calculators_spec 0 [73] (by decide)

/-- C8: for a fixed metric and direction, a list already sorted by the
comparator is a fixed point of the comparator-driven sort, for both the
computed-score comparator (`QualityFloatList.Less`) and the header-presort
comparator (`PreSortRecordList.Less`). -/
theorem sort_idempotent :
    (∀ (m : QualityMetric) (asc : Bool) (l : List QualityFloat),
       l.Pairwise (fun a b => qflLE m asc a b = true) → sortQFL m asc l = l) ∧
    (∀ (m : QualityMetric) (asc : Bool) (l : List PreSortRecord),
       l.Pairwise (fun a b => preLE m asc a b = true) → sortPre m asc l = l) :=
  ⟨fun _ _ _ h => List.Sorted.insertionSort_eq h,
   fun _ _ _ h => List.Sorted.insertionSort_eq h⟩

/-- C8 witness: the theorem applied to concrete already-sorted two-element
lists in the default descending AvgPhred order. -/
theorem sort_idempotent_witness :
    sortQFL .AvgPhred false [⟨"a", 2, .AvgPhred⟩, ⟨"b", 1, .AvgPhred⟩]
      = [⟨"a", 2, .AvgPhred⟩, ⟨"b", 1, .AvgPhred⟩] :=
  sort_idempotent.1 .AvgPhred false _ (by decide)

/-- C5: in the header-presort path, an input containing any record whose
header lacks a parseable token for the requested metric makes the whole run
return an error (so nothing is written), regardless of the filter bounds. -/
theorem presort_missing_metric_fatal (input : List FastxRecord) (metric : QualityMetric)
    (ascending : Bool) (minQual maxQual : ℚ)
    (h : ∃ r ∈ input, (parsePreSortRecord r metric).HasQual = false) :
    ∃ e, runPresort input metric ascending minQual maxQual = Except.error e := by
  have key : ∀ (l : List FastxRecord), (∃ r ∈ l, (parsePreSortRecord r metric).HasQual = false) →
      ∃ e, collectPresortRecords metric minQual maxQual l = Except.error e := by
    intro l hl
    induction l with
    | nil => simp at hl
    | cons r rs ih =>
      rw [collectPresortRecords]
      by_cases hb : (parsePreSortRecord r metric).HasQual = false
      · exact ⟨_, by rw [if_pos hb]⟩
      · have htail : ∃ r ∈ rs, (parsePreSortRecord r metric).HasQual = false := by
          rcases hl with ⟨x, hx, hbad⟩
          rcases List.mem_cons.mp hx with hx | hx
          · exact absurd (hx ▸ hbad) hb
          · exact ⟨x, hx, hbad⟩
        obtain ⟨e, he⟩ := ih htail
        rw [if_neg hb, he]
        exact ⟨e, rfl⟩
  obtain ⟨e, he⟩ := key input h
  rw [runPresort, he]
  exact ⟨e, rfl⟩

/-- C5 witness: a two-record input whose second record has no `avgphred`
token fails fatally even with a filter band (`[50, 60]`) that would have
excluded that record anyway. -/
theorem presort_missing_metric_fatal_witness :
    ∃ e, runPresort
      [{ name := "seq1 avgphred=55", sequence := [65], quality := [70] },
       { name := "seq2", sequence := [65], quality := [70] }]
      .AvgPhred false 50 60 = Except.error e :=
  presort_missing_metric_fatal _ .AvgPhred false 50 60
    ⟨{ name := "seq2", sequence := [65], quality := [70] }, by decide⟩

/-- Equal-quality presort record with a given id and no size annotation. -/
def psRec (id : String) : PreSortRecord :=
  { ID := id, Name := id, Quality := 1, Size := 0,
    Record := { name := id, sequence := [], quality := [] },
    HasSize := false, HasQual := true }

/-- Equal-quality presort record with a given id and size annotation. -/
def psRecSized (id : String) (sz : Nat) : PreSortRecord :=
  { ID := id, Name := id, Quality := 1, Size := sz,
    Record := { name := id, sequence := [], quality := [] },
    HasSize := true, HasQual := true }

/-- C1 counterexample: two comparisons with equal metric values whose
tie-break outcome depends on the ascending flag, contradicting the claim that
with equal metric values the size and name/ID tie-breaks are independent of
`ascending`.  In `QualityFloatList.Less` the name tie-break flips with the
flag; in `PreSortRecordList.Less` the size tie-break flips with the flag. -/
theorem ascending_tiebreak_counterexample :
    ((⟨"a", 1, .AvgPhred⟩ : QualityFloat).Value = (⟨"b", 1, .AvgPhred⟩ : QualityFloat).Value ∧
      qflLess .AvgPhred false ⟨"a", 1, .AvgPhred⟩ ⟨"b", 1, .AvgPhred⟩ = true ∧
      qflLess .AvgPhred true ⟨"a", 1, .AvgPhred⟩ ⟨"b", 1, .AvgPhred⟩ = false) ∧
    ((psRecSized "a" 2).Quality = (psRecSized "b" 1).Quality ∧
      preLess .AvgPhred false (psRecSized "a" 2) (psRecSized "b" 1) = true ∧
      preLess .AvgPhred true (psRecSized "a" 2) (psRecSized "b" 1) = false) := by
  refine ⟨⟨rfl, by decide, by decide⟩, ⟨rfl, by decide, by decide⟩⟩

/-- C1 amended: setting `ascending = true` inverts the whole of
`QualityFloatList.Less` (primary key and name tie-break alike); in
`PreSortRecordList.Less` it inverts the primary-key comparison and the size
tie-break (which becomes size-ascending), while the natural-order ID
tie-break alone is independent of the flag. -/
theorem ascending_flip_semantics :
    (∀ (m : QualityMetric) (a b : QualityFloat),
       qflLess m true a b = !(qflLess m false a b)) ∧
    (∀ (m : QualityMetric) (a b : PreSortRecord), a.Quality ≠ b.Quality →
       preLess m true a b = !(preLess m false a b)) ∧
    (∀ (m : QualityMetric) (a b : PreSortRecord), a.Quality = b.Quality →
       a.HasSize = true → b.HasSize = true → a.Size ≠ b.Size →
       preLess m true a b = decide (a.Size < b.Size) ∧
       preLess m false a b = decide (b.Size < a.Size)) ∧
    (∀ (m : QualityMetric) (asc : Bool) (a b : PreSortRecord), a.Quality = b.Quality →
       ((a.HasSize && b.HasSize) = false ∨ a.Size = b.Size) →
       preLess m asc a b = naturalLess a.ID b.ID) := by
  refine ⟨?_, ?_, ?_, ?_⟩
  · intro m a b
    simp only [qflLess]
    cases hr : (if m = .MaxEE ∨ m = .Meep ∨ m = .LQCount ∨ m = .LQPercent then
      if a.Value ≠ b.Value then decide (a.Value < b.Value) else naturalLess a.Name b.Name
      else if a.Value ≠ b.Value then decide (b.Value < a.Value)
      else naturalLess a.Name b.Name) <;> simp
  · intro m a b hq
    simp only [preLess, if_pos hq]
    cases hr : (if m = .MaxEE ∨ m = .Meep ∨ m = .LQCount ∨ m = .LQPercent then
      decide (a.Quality < b.Quality) else decide (b.Quality < a.Quality)) <;> simp
  · intro m a b hq ha hb hs
    constructor
    · rw [preLess_eq_tiebreak m true a b hq]
      simp [ha, hb, hs]
    · rw [preLess_eq_tiebreak m false a b hq]
      simp [ha, hb, hs]
  · intro m asc a b hq hcase
    rw [preLess_eq_tiebreak m asc a b hq]
    rcases hcase with hc | hc
    · rw [if_neg (by simp [hc])]
    · by_cases hbs : (a.HasSize && b.HasSize) = true
      · rw [if_pos hbs, if_neg (by simp [hc])]
      · rw [if_neg hbs]

/-- C1 witness: the amended theorem applied at concrete entries covering the
size tie-break (flips with the flag) and the ID tie-break (does not). -/
theorem ascending_flip_semantics_witness :
    (preLess .AvgPhred true (psRecSized "a" 2) (psRecSized "b" 1)
        = decide ((psRecSized "a" 2).Size < (psRecSized "b" 1).Size) ∧
      preLess .AvgPhred false (psRecSized "a" 2) (psRecSized "b" 1)
        = decide ((psRecSized "b" 1).Size < (psRecSized "a" 2).Size)) ∧
    preLess .AvgPhred true (psRec "a") (psRec "b")
      = naturalLess (psRec "a").ID (psRec "b").ID :=
  ⟨ascending_flip_semantics.2.2.1 .AvgPhred _ _ rfl rfl rfl (by decide),
   ascending_flip_semantics.2.2.2 .AvgPhred true _ _ rfl (Or.inl (by decide))⟩

/-- C2: with equal metric values in the default descending mode the presort
comparator orders by size descending when both entries carry different sizes,
and otherwise by natural ordering of the IDs (this is also the tie-break of
the computed-score comparator); concretely, equal-value records seq10, seq2,
seq1 without size annotations sort to [seq1, seq2, seq10]. -/
theorem default_tiebreak_spec :
    (∀ (m : QualityMetric) (a b : PreSortRecord), a.Quality = b.Quality →
       a.HasSize = true → b.HasSize = true → a.Size ≠ b.Size →
       preLess m false a b = decide (b.Size < a.Size)) ∧
    (∀ (m : QualityMetric) (a b : PreSortRecord), a.Quality = b.Quality →
       ((a.HasSize && b.HasSize) = false ∨ a.Size = b.Size) →
       preLess m false a b = naturalLess a.ID b.ID) ∧
    (∀ (m : QualityMetric) (a b : QualityFloat), a.Value = b.Value →
       qflLess m false a b = naturalLess a.Name b.Name) ∧
    sortPre .AvgPhred false [psRec "seq10", psRec "seq2", psRec "seq1"]
      = [psRec "seq1", psRec "seq2", psRec "seq10"] := by
  refine ⟨?_, ?_, ?_, by decide⟩
  · intro m a b hq ha hb hs
    rw [preLess_eq_tiebreak m false a b hq]
    simp [ha, hb, hs]
  · intro m a b hq hcase
    rw [preLess_eq_tiebreak m false a b hq]
    rcases hcase with hc | hc
    · rw [if_neg (by simp [hc])]
    · by_cases hbs : (a.HasSize && b.HasSize) = true
      · rw [if_pos hbs, if_neg (by simp [hc])]
      · rw [if_neg hbs]
  · intro m a b hv
    by_cases hm : m = QualityMetric.MaxEE ∨ m = .Meep ∨ m = .LQCount ∨ m = .LQPercent
    · simp [qflLess, hm, hv]
    · simp [qflLess, hm, hv]

/-- C2 witness: the theorem applied at concrete sized and unsized entries. -/
theorem default_tiebreak_spec_witness :
    preLess .AvgPhred false (psRecSized "a" 2) (psRecSized "b" 5)
        = decide ((psRecSized "b" 5).Size < (psRecSized "a" 2).Size) ∧
    preLess .MaxEE false (psRec "x" ) (psRec "y")
        = naturalLess (psRec "x").ID (psRec "y").ID :=
  ⟨default_tiebreak_spec.1 .AvgPhred _ _ rfl rfl rfl (by decide),
   default_tiebreak_spec.2.1 .MaxEE _ _ rfl (Or.inl (by decide))⟩

/-- C7 counterexample: once the arena reaches 2^32 bytes the `uint32` offset
stored by the next `Append` wraps to 0, and `Get` of that slot returns the
first arena byte instead of the appended bytes `[65]`. -/
theorem compactStorage_get_wrap_counterexample :
    ((CompactStorage.empty.Append (List.replicate U32 48)).Append [65]).Get 1
      = some [48] ∧ some ([48] : List Nat) ≠ some [65] := by
  refine ⟨?_, by decide⟩
  have h1 : (CompactStorage.empty.Append (List.replicate U32 48)).Append [65]
      = { data := List.replicate U32 48 ++ [65], offsets := [0, 0], lengths := [0, 1] } := by
    have hmod : U32 % U32 = 0 := Nat.mod_self U32
    have h1m : 1 % U32 = 1 := Nat.mod_eq_of_lt (by norm_num [U32])
    simp [CompactStorage.Append, CompactStorage.empty, hmod, h1m]
  have hdl : (List.replicate U32 48 ++ [65]).length = U32 + 1 := by
    rw [List.length_append, List.length_replicate,
      show ([65] : List Nat).length = 1 from rfl]
  have h1m : 1 % U32 = 1 := Nat.mod_eq_of_lt (by norm_num [U32])
  rw [h1, CompactStorage.Get_some]
  · simp only [List.getD_cons_succ, List.getD_cons_zero, Nat.zero_add, h1m,
      List.drop_zero, Nat.sub_zero]
    rw [List.take_append_of_le_length (by rw [List.length_replicate]; norm_num [U32]),
      List.take_replicate]
    have hmin : min 1 U32 = 1 := by
      rw [Nat.min_eq_left]
      norm_num [U32]
    rw [hmin, List.replicate_one]
  · simp only [List.getD_cons_succ, List.getD_cons_zero, Nat.zero_add, h1m, hdl]
    omega

/-- C7 amended: `Append` preserves the arena invariant and only ever extends
the three components (monotonic, no overwrite), and `Get i` returns exactly
the bytes passed to the i-th `Append` provided the arena together with that
blob stays under 2^32 bytes at the time of the append (the Go offsets and
lengths are `uint32` and the slice's high bound `start+length` is computed in
`uint32`, so past that the offset wraps, returning wrong bytes, or the slice
bounds invert and Get panics). -/
theorem compactStorage_invariant_monotone_get :
    (∀ (s : CompactStorage) (c : List Nat), s.wf → (s.Append c).wf) ∧
    (∀ (s : CompactStorage) (bss : List (List Nat)), ∃ dt ot lt,
        (bss.foldl CompactStorage.Append s).data = s.data ++ dt ∧
        (bss.foldl CompactStorage.Append s).offsets = s.offsets ++ ot ∧
        (bss.foldl CompactStorage.Append s).lengths = s.lengths ++ lt) ∧
    (∀ (s : CompactStorage) (c : List Nat) (laters : List (List Nat)),
        s.offsets.length = s.lengths.length → s.data.length + c.length < U32 →
        (laters.foldl CompactStorage.Append (s.Append c)).Get s.Len = some c) := by
  refine ⟨?_, fun s bss => foldl_append_extends bss s,
    fun s c laters hbal hsum => get_after_append s c laters hbal hsum⟩
  rintro s c ⟨hbal, hbound⟩
  refine ⟨by simp [CompactStorage.Append, hbal], ?_⟩
  intro i hi
  simp only [CompactStorage.Append, List.length_append, List.length_cons,
    List.length_nil] at hi ⊢
  by_cases hlt : i < s.offsets.length
  · rw [List.getD_append _ _ _ _ hlt, List.getD_append _ _ _ _ (hbal ▸ hlt)]
    exact le_trans (hbound i hlt) (by simp)
  · have hieq : i = s.offsets.length := by omega
    subst hieq
    rw [List.getD_append_right _ _ _ _ (le_refl _),
      List.getD_append_right _ _ _ _ (le_of_eq hbal.symm)]
    simp only [Nat.sub_self, hbal, List.getD_cons_zero]
    exact Nat.add_le_add (Nat.mod_le _ _) (Nat.mod_le _ _)

/-- C7 witness: the amended theorem applied to a small concrete arena. -/
theorem compactStorage_invariant_monotone_get_witness :
    (CompactStorage.empty.Append [7]).wf ∧
    ([[9]].foldl CompactStorage.Append (CompactStorage.empty.Append [7])).Get
      CompactStorage.empty.Len = some [7] :=
  ⟨compactStorage_invariant_monotone_get.1 CompactStorage.empty [7]
     ⟨rfl, fun i hi => absurd hi (by simp [CompactStorage.empty])⟩,
   compactStorage_invariant_monotone_get.2.2 CompactStorage.empty [7] [[9]] rfl
     (by decide)⟩

/-- C4 counterexample: the compression round-trip fails once the arena crosses
2^32 bytes: with the identity codec (which satisfies the claim's
decompress-inverts-compress assumption) and a record with equal-length
sequence `[65]` and quality `[66]`, retrieval after the wrap returns the first
arena bytes `([48], [48])` instead. -/
theorem roundtrip_wrap_counterexample :
    getRecordCompressed id
      (appendRecordCompressed id (CompactStorage.empty.Append (List.replicate U32 48))
        { name := "r", sequence := [65], quality := [66] }) 1 = some ([48], [48]) ∧
    some (([48], [48]) : List Nat × List Nat) ≠ some ([65], [66]) := by
  refine ⟨?_, by decide⟩
  have h1 : appendRecordCompressed id (CompactStorage.empty.Append (List.replicate U32 48))
        { name := "r", sequence := [65], quality := [66] }
      = { data := List.replicate U32 48 ++ [65, 66], offsets := [0, 0], lengths := [0, 2] } := by
    have hmod : U32 % U32 = 0 := Nat.mod_self U32
    have h2m : 2 % U32 = 2 := Nat.mod_eq_of_lt (by norm_num [U32])
    simp [appendRecordCompressed, CompactStorage.Append, CompactStorage.empty, hmod, h2m]
  have h2 : (appendRecordCompressed id (CompactStorage.empty.Append (List.replicate U32 48))
        { name := "r", sequence := [65], quality := [66] }).Get 1 = some [48, 48] := by
    have hdl : (List.replicate U32 48 ++ [65, 66]).length = U32 + 2 := by
      rw [List.length_append, List.length_replicate,
        show ([65, 66] : List Nat).length = 2 from rfl]
    have h2m : 2 % U32 = 2 := Nat.mod_eq_of_lt (by norm_num [U32])
    rw [h1, CompactStorage.Get_some]
    · simp only [List.getD_cons_succ, List.getD_cons_zero, Nat.zero_add, h2m,
        List.drop_zero, Nat.sub_zero]
      rw [List.take_append_of_le_length (by rw [List.length_replicate]; norm_num [U32]),
        List.take_replicate]
      have hmin : min 2 U32 = 2 := by
        rw [Nat.min_eq_left]
        norm_num [U32]
      rw [hmin]
      rfl
    · simp only [List.getD_cons_succ, List.getD_cons_zero, Nat.zero_add, h2m, hdl]
      omega
  exact (getRecordCompressed_of_get id _ 1 [48, 48] h2).trans (by decide)

/-- C4 amended: for every record with equal-length sequence and quality, every
balanced prior arena state, and every list of later appends, compressing
`sequence ++ quality` into the arena and later retrieving, decompressing and
splitting at the midpoint returns the original bytes, assuming the codec
decompress inverts compress and the arena together with the compressed blob
stays under 2^32 bytes at the time of the append (Go keeps arena offsets and
lengths in `uint32` and computes the slice's high bound in `uint32`, so past
that bound the offset wraps to wrong bytes or the slice panics). -/
theorem compressed_roundtrip (compress decompress : List Nat → List Nat)
    (hcodec : ∀ b, decompress (compress b) = b) (s : CompactStorage) (r : FastxRecord)
    (hlen : r.sequence.length = r.quality.length)
    (hbal : s.offsets.length = s.lengths.length)
    (hsum : s.data.length + (compress (r.sequence ++ r.quality)).length < U32)
    (laters : List (List Nat)) :
    getRecordCompressed decompress
      (laters.foldl CompactStorage.Append (appendRecordCompressed compress s r)) s.Len
      = some (r.sequence, r.quality) := by
  unfold getRecordCompressed appendRecordCompressed
  rw [get_after_append s _ laters hbal hsum]
  simp only [hcodec]
  have hlen2 : (r.sequence ++ r.quality).length / 2 = r.sequence.length := by
    simp only [List.length_append, ← hlen]
    omega
  rw [hlen2, List.take_left, List.drop_left]

/-- C4 witness: the amended theorem applied to the identity codec, an empty
prior arena, a one-byte record, and one later append. -/
theorem compressed_roundtrip_witness :
    getRecordCompressed id ([[9]].foldl CompactStorage.Append
      (appendRecordCompressed id CompactStorage.empty
        { name := "x", sequence := [65], quality := [66] })) CompactStorage.empty.Len
      = some ([65], [66]) :=
  compressed_roundtrip id id (fun _ => rfl) CompactStorage.empty
    { name := "x", sequence := [65], quality := [66] } rfl rfl (by decide) [[9]]

/-- Folding Go-map insertion over the input gives last-writer-wins lookup:
the lookup result is the last record with the key's name, if any. -/
theorem foldl_mapUpd_lookup (l : List FastxRecord) (m : String → Option FastxRecord)
    (k : String) :
    (l.foldl (fun m r => mapUpd m r.name r) m) k =
      ((l.reverse.find? (fun r => decide (r.name = k))).or (m k)) := by
  induction l generalizing m with
  | nil => simp
  | cons r rs ih =>
    rw [List.foldl_cons, ih, List.reverse_cons, List.find?_append, Option.or_assoc]
    congr 1
    by_cases hp : r.name = k
    · simp [List.find?, hp, mapUpd]
    · have hp2 : ¬(k = r.name) := fun h => hp h.symm
      simp [List.find?, mapUpd, hp, hp2]

/-- When `f` is some on every element, `filterMap f` preserves length. -/
theorem filterMap_length_all_some {α β : Type} (f : α → Option β) (l : List α)
    (h : ∀ a ∈ l, (f a).isSome = true) : (l.filterMap f).length = l.length := by
  induction l with
  | nil => rfl
  | cons a as ih =>
    rcases hfa : f a with _ | b
    · exact absurd (h a (by simp)) (by simp [hfa])
    · rw [List.filterMap_cons, hfa]
      simp only [List.length_cons]
      rw [ih (fun x hx => h x (by simp [hx]))]

/-- C9: in the map-keyed stdin path, with filter bounds that pass every score,
the output has one emitted record per input record (duplicate full headers
included), and every emitted record is exactly the last-read input record
bearing its header, so the sequence/quality bytes of an earlier duplicate are
never emitted.  `headerMetrics` is empty (the claim is about the bytes, not
annotations) and `scoreFn` abstracts the float metric calculator. -/
theorem sortStdin_last_record_wins (scoreFn : FastxRecord → ℚ) (metric : QualityMetric)
    (ascending : Bool) (calcToken : String → FastxRecord → String) (minQ maxQ : ℚ)
    (input : List FastxRecord)
    (hpass : ∀ r ∈ input, minQ ≤ scoreFn r ∧ scoreFn r ≤ maxQ) :
    (sortStdin scoreFn metric ascending calcToken [] minQ maxQ input).length
        = input.length ∧
    ∀ o ∈ sortStdin scoreFn metric ascending calcToken [] minQ maxQ input,
      input.reverse.find? (fun r => decide (r.name = o.name)) = some o := by
  have hout : sortStdin scoreFn metric ascending calcToken [] minQ maxQ input =
      (sortQFL metric ascending (input.map (fun r =>
        { Name := r.name, Value := scoreFn r, Metric := metric : QualityFloat }))).filterMap
        (fun kv =>
          match (input.foldl (fun m r => mapUpd m r.name r) emptySeqMap) kv.Name with
          | some r0 => writeRecord calcToken r0 kv.Value [] minQ maxQ
          | none => none) := rfl
  set entries := input.map (fun r =>
    { Name := r.name, Value := scoreFn r, Metric := metric : QualityFloat }) with hentries
  set f := fun kv : QualityFloat =>
      match (input.foldl (fun m r => mapUpd m r.name r) emptySeqMap) kv.Name with
      | some r0 => writeRecord calcToken r0 kv.Value [] minQ maxQ
      | none => none with hf
  have hsorted : ∀ kv ∈ sortQFL metric ascending entries, kv ∈ entries := fun kv hkv =>
    (List.perm_insertionSort _ entries).mem_iff.mp hkv
  have hkey : ∀ kv ∈ sortQFL metric ascending entries, ∃ x,
      f kv = some x ∧ input.reverse.find? (fun r => decide (r.name = kv.Name)) = some x ∧
      x.name = kv.Name := by
    intro kv hkv
    obtain ⟨r, hr, hkveq⟩ := List.mem_map.mp (hsorted kv hkv)
    have hfindSome : (input.reverse.find? (fun r => decide (r.name = kv.Name))).isSome := by
      rw [List.find?_isSome]
      exact ⟨r, by simp [hr], by simp [← hkveq]⟩
    obtain ⟨x, hx⟩ := Option.isSome_iff_exists.mp hfindSome
    have hxname : x.name = kv.Name := by
      have := List.find?_some hx
      simpa using this
    have hxmem : x ∈ input := by
      have := List.mem_of_find?_eq_some hx
      simpa using this
    have hlook : (input.foldl (fun m r => mapUpd m r.name r) emptySeqMap) kv.Name = some x := by
      rw [foldl_mapUpd_lookup, hx]
      rfl
    have hval : kv.Value = scoreFn r := by rw [← hkveq]
    have hwrite : writeRecord calcToken x kv.Value [] minQ maxQ = some x := by
      rw [writeRecord]
      rw [if_neg ?hneg]
      · simp
      case hneg =>
        rw [hval]
        rcases hpass r hr with ⟨h1, h2⟩
        simp only [not_or, not_lt]
        exact ⟨h1, by simpa [gt_iff_lt, not_lt] using h2⟩
    refine ⟨x, ?_, hx, hxname⟩
    rw [hf]
    simp only [hlook]
    exact hwrite
  constructor
  · rw [hout]
    rw [filterMap_length_all_some _ _ (fun kv hkv => by
      obtain ⟨x, hfx, -, -⟩ := hkey kv hkv
      simp [hfx])]
    rw [sortQFL, (List.perm_insertionSort _ entries).length_eq, hentries, List.length_map]
  · intro o ho
    rw [hout] at ho
    obtain ⟨kv, hkv, hfkv⟩ := List.mem_filterMap.mp ho
    obtain ⟨x, hfx, hfind, hxname⟩ := hkey kv hkv
    have hox : o = x := by
      rw [hfx] at hfkv
      exact (Option.some_injective _ hfkv).symm
    subst hox
    rw [hxname]
    exact hfind

/-- C9 witness: two records with the identical full header "dup": the output
has two entries and each is the later input record (sequence [3], quality
[4]); the earlier record's bytes ([1]/[2]) are never emitted. -/
theorem sortStdin_last_record_wins_witness :
    (sortStdin (fun _ => 0) .AvgPhred false (fun _ _ => "") [] 0 0
        [{ name := "dup", sequence := [1], quality := [2] },
         { name := "dup", sequence := [3], quality := [4] }]).length = 2 ∧
    ∀ o ∈ sortStdin (fun _ => 0) .AvgPhred false (fun _ _ => "") [] 0 0
        [{ name := "dup", sequence := [1], quality := [2] },
         { name := "dup", sequence := [3], quality := [4] }],
      ([{ name := "dup", sequence := [1], quality := [2] },
        { name := "dup", sequence := [3], quality := [4] }] :
          List FastxRecord).reverse.find? (fun r => decide (r.name = o.name)) = some o :=
  sortStdin_last_record_wins (fun _ => 0) .AvgPhred false (fun _ _ => "") 0 0
    [{ name := "dup", sequence := [1], quality := [2] },
     { name := "dup", sequence := [3], quality := [4] }]
    (fun _ _ => ⟨le_refl 0, le_refl 0⟩)

/-- Decimal-numeral pattern from the claim's words: one or more digits, an
optional single dot, zero or more digits (`\d+\.?\d*` as a full match). -/
def decimalPat (l : List Char) : Bool :=
  let d1 := l.takeWhile Char.isDigit
  let r := l.dropWhile Char.isDigit
  !d1.isEmpty &&
    (match r with
     | [] => true
     | '.' :: r2 => r2.all Char.isDigit
     | _ => false)

/-- Scanning an all-satisfying block followed by a failing element splits
exactly at that element. -/
theorem takeWhile_dropWhile_append_stop {p : Char → Bool} {d : List Char} {x : Char}
    (r : List Char) (hd : d.all p = true) (hx : p x = false) :
    (d ++ x :: r).takeWhile p = d ∧ (d ++ x :: r).dropWhile p = x :: r := by
  induction d with
  | nil =>
    simp only [List.nil_append]
    exact ⟨List.takeWhile_cons_of_neg (by simp [hx]),
      List.dropWhile_cons_of_neg (by simp [hx])⟩
  | cons c cs ih =>
    have hc : p c = true := by
      have := hd
      simp only [List.all_cons, Bool.and_eq_true] at this
      exact this.1
    have hcs : cs.all p = true := by
      have := hd
      simp only [List.all_cons, Bool.and_eq_true] at this
      exact this.2
    obtain ⟨h1, h2⟩ := ih hcs
    constructor
    · rw [List.cons_append, List.takeWhile_cons_of_pos hc, h1]
    · rw [List.cons_append, List.dropWhile_cons_of_pos hc, h2]

/-- An all-satisfying list is untouched by takeWhile/dropWhile. -/
theorem takeWhile_dropWhile_all {p : Char → Bool} {d : List Char} (hd : d.all p = true) :
    d.takeWhile p = d ∧ d.dropWhile p = [] := by
  induction d with
  | nil => exact ⟨rfl, rfl⟩
  | cons c cs ih =>
    simp only [List.all_cons, Bool.and_eq_true] at hd
    obtain ⟨h1, h2⟩ := ih hd.2
    exact ⟨by rw [List.takeWhile_cons_of_pos hd.1, h1],
      by rw [List.dropWhile_cons_of_pos hd.1, h2]⟩

/-- Every capture produced by the number matcher is a `\d+\.?\d*` numeral. -/
theorem matchNumberAt_decimalPat {l cap rest : List Char}
    (h : matchNumberAt l = some (cap, rest)) : decimalPat cap = true := by
  unfold matchNumberAt at h
  by_cases he : (l.takeWhile Char.isDigit).isEmpty
  · rw [if_pos he] at h
    exact absurd h (by simp)
  · rw [if_neg he] at h
    have hall : (l.takeWhile Char.isDigit).all Char.isDigit = true := List.all_takeWhile
    split at h
    · rename_i r2 heq
      rw [Option.some_inj, Prod.mk.injEq] at h
      obtain ⟨hcap, hrest⟩ := h
      subst hcap
      have hdot : Char.isDigit '.' = false := by decide
      obtain ⟨ht, hdr⟩ := takeWhile_dropWhile_append_stop
        (r2.takeWhile Char.isDigit) hall hdot
      rw [decimalPat]
      simp only [ht, hdr, he, Bool.not_false, Bool.true_and]
      simp [List.all_takeWhile]
    · rename_i hnodot
      rw [Option.some_inj, Prod.mk.injEq] at h
      obtain ⟨hcap, hrest⟩ := h
      subst hcap
      obtain ⟨ht, hdr⟩ := takeWhile_dropWhile_all hall
      rw [decimalPat]
      simp [ht, hdr, he]

/-- The space-format matcher only returns captures from the number matcher. -/
theorem matchSpaceMetricAt_capture {l w cap : List Char}
    (h : matchSpaceMetricAt l = some (w, cap)) :
    ∃ r rest, matchNumberAt r = some (cap, rest) := by
  unfold matchSpaceMetricAt at h
  split_ifs at h with h1 h2
  split at h
  · split at h
    · rename_i heq
      rw [Option.some_inj] at h
      cases h
      exact ⟨_, _, heq⟩
    · exact absurd h (by simp)
  · exact absurd h (by simp)

/-- The semicolon-format matcher only returns captures from the number
matcher. -/
theorem matchSemiMetricAt_capture {l w cap : List Char}
    (h : matchSemiMetricAt l = some (w, cap)) :
    ∃ r rest, matchNumberAt r = some (cap, rest) := by
  unfold matchSemiMetricAt at h
  split at h
  · split_ifs at h with h1
    split at h
    · split at h
      · rename_i heq
        rw [Option.some_inj] at h
        cases h
        exact ⟨_, _, heq⟩
      · exact absurd h (by simp)
    · exact absurd h (by simp)
  · exact absurd h (by simp)

/-- Any capture returned by the space-format scanner is a decimal numeral. -/
theorem findSpaceMetric_decimal {t l cap : List Char}
    (h : findSpaceMetric t l = some cap) : decimalPat cap = true := by
  induction l with
  | nil => exact absurd h (by simp [findSpaceMetric])
  | cons c cs ih =>
    rw [findSpaceMetric] at h
    split at h
    · rename_i w cap0 heq
      split_ifs at h with hw
      · rw [Option.some_inj] at h
        subst h
        obtain ⟨r, rest, hr⟩ := matchSpaceMetricAt_capture heq
        exact matchNumberAt_decimalPat hr
      · exact ih h
    · exact ih h

/-- Any capture returned by the semicolon-format scanner is a decimal
numeral. -/
theorem findSemiMetric_decimal {t l cap : List Char}
    (h : findSemiMetric t l = some cap) : decimalPat cap = true := by
  induction l with
  | nil => exact absurd h (by simp [findSemiMetric])
  | cons c cs ih =>
    rw [findSemiMetric] at h
    split at h
    · rename_i w cap0 heq
      split_ifs at h with hw
      · rw [Option.some_inj] at h
        subst h
        obtain ⟨r, rest, hr⟩ := matchSemiMetricAt_capture heq
        exact matchNumberAt_decimalPat hr
      · exact ih h
    · exact ih h

/-- Header whose metric value is negative. -/
def negRec : FastxRecord := { name := "seq1 avgphred=-2.5", sequence := [], quality := [] }

/-- Header whose metric value is the word inf. -/
def infRec : FastxRecord := { name := "seq1 avgphred=inf", sequence := [], quality := [] }

/-- Header whose metric value is in scientific notation. -/
def sciRec : FastxRecord := { name := "seq1 avgphred=1e5", sequence := [], quality := [] }

/-- C10 counterexample: a header with the scientific-notation value `1e5` is
not treated as missing the metric — the regex captures the leading digits, so
`HasQual` is true and the parsed quality is 1. -/
theorem scientific_notation_parsed_counterexample :
    (parsePreSortRecord sciRec .AvgPhred).HasQual = true ∧
    (parsePreSortRecord sciRec .AvgPhred).Quality = 1 := by
  constructor
  · decide
  · decide

/-- C10 amended: the parser recognizes a metric value only as a
digits-optional-dot-digits capture (necessary condition), and a header whose
metric token's value is negative or a non-numeric word such as inf is treated
as missing, making the presort run fail fatally; but a scientific-notation
value such as 1e5 is not treated as missing: its mantissa's leading decimal is
captured, so the record parses with that truncated value (1 for 1e5). -/
theorem header_metric_recognition (r : FastxRecord) (m : QualityMetric)
    (h : (parsePreSortRecord r m).HasQual = true) :
    (∃ cap, decimalPat cap = true ∧ (parsePreSortRecord r m).Quality = parseDecimal cap) ∧
    (parsePreSortRecord negRec .AvgPhred).HasQual = false ∧
    (∃ e, runPresort [negRec] .AvgPhred false 0 100 = Except.error e) ∧
    (parsePreSortRecord infRec .AvgPhred).HasQual = false ∧
    (∃ e, runPresort [infRec] .AvgPhred false 0 100 = Except.error e) ∧
    (parsePreSortRecord sciRec .AvgPhred).HasQual = true ∧
    (parsePreSortRecord sciRec .AvgPhred).Quality = 1 := by
  refine ⟨?_, by decide, ⟨_, rfl⟩, by decide, ⟨_, rfl⟩, by decide, by decide⟩
  rcases hs : findSpaceMetric ((metricString m).data) r.name.data with _ | cap
  · rcases hm2 : findSemiMetric ((metricString m).data) r.name.data with _ | cap
    · rcases hz : findSize r.name.data with _ | d <;>
        simp [parsePreSortRecord, hs, hm2, hz] at h
    · exact ⟨cap, findSemiMetric_decimal hm2, by simp [parsePreSortRecord, hs, hm2]⟩
  · exact ⟨cap, findSpaceMetric_decimal hs, by simp [parsePreSortRecord, hs]⟩

/-- C10 witness: the amended theorem applied to a record whose header carries
an integer avgphred annotation. -/
theorem header_metric_recognition_witness :
    (∃ cap, decimalPat cap = true ∧
      (parsePreSortRecord { name := "seq1 avgphred=30", sequence := [], quality := [] }
        .AvgPhred).Quality = parseDecimal cap) ∧
    (parsePreSortRecord negRec .AvgPhred).HasQual = false ∧
    (∃ e, runPresort [negRec] .AvgPhred false 0 100 = Except.error e) ∧
    (parsePreSortRecord infRec .AvgPhred).HasQual = false ∧
    (∃ e, runPresort [infRec] .AvgPhred false 0 100 = Except.error e) ∧
    (parsePreSortRecord sciRec .AvgPhred).HasQual = true ∧
    (parsePreSortRecord sciRec .AvgPhred).Quality = 1 :=
  header_metric_recognition { name := "seq1 avgphred=30", sequence := [], quality := [] }
    .AvgPhred (by decide)
